import Mathlib

/-!
Verification development for the tool-calling orchestration and streaming
pipeline of the grafana-chat-plugin repository.

The Go sources are shallowly embedded: Go strings become `List Char`
(`GoStr`), Go `int` becomes `Int`, Go maps become association lists with
last-write-wins update, fallible Go functions return `Option`/`Except`.
External library calls (`json.Unmarshal`, `time.ParseDuration`,
`time.Format`) are passed in as explicit function parameters, since their
code is not part of the repository.

Embedded modules:
  * `pkg/server/rate_limit.go` (alertmanager-mcp-go): `ValidatePaginationParams`,
    `PaginateResults`
  * `pkg/mcp/formatter.go` (client part): tool namespacing, `normalizeArguments`,
    `parseRelativeTime`, `parseDuration`, `toCamelCase`, `DiscoverTools` caching
  * `pkg/agent/memory.go`: `ConversationMemory.AddMessage` / `Clear`
  * `pkg/llm/openai.go`: the `StreamChat` chunk-emission state machine
  * `pkg/plugin/resources.go`: `buildContextualMessage`
-/

namespace GrafanaChat

/-- Go strings are modelled as lists of characters. -/
abbrev GoStr := List Char

/-- Coerce a Lean string literal to the Go-string model. -/
def gs (s : String) : GoStr := s.data

/-! ## Pagination engine (`mcp_servers/alertmanager-mcp-go/pkg/server/rate_limit.go`) -/
/-- The two error shapes `ValidatePaginationParams` can produce
(`fmt.Errorf` messages in Go, embedded as a tagged union). -/
inductive PaginationError where
  | invalidCount (count maxCount : Int)
  | invalidOffset (offset : Int)
deriving DecidableEq, Repr

/-- Struct `PaginationResult` from rate_limit.go. -/
structure PaginationResult where
  total : Int
  offset : Int
  count : Int
  requestedCount : Int
  hasMore : Bool
deriving DecidableEq, Repr

/-- Struct `PaginatedResponse` from rate_limit.go (`Data any` made generic). -/
structure PaginatedResponse (α : Type) where
  data : List α
  pagination : PaginationResult
deriving DecidableEq, Repr

/-- Function `ValidatePaginationParams(count, offset, maxCount int) (int, int, error)`. -/
def ValidatePaginationParams (count offset maxCount : Int) :
    Except PaginationError (Int × Int) :=
  if count < 1 then
    .error (.invalidCount count maxCount)
  else if count > maxCount then
    .error (.invalidCount count maxCount)
  else if offset < 0 then
    .error (.invalidOffset offset)
  else
    .ok (count, offset)

/-- Go slice expression `items[lo:hi]` (with `0 <= lo <= hi <= len items`). -/
def goSlice {α : Type} (items : List α) (lo hi : Int) : List α :=
  (items.take hi.toNat).drop lo.toNat

/-- Function `PaginateResults[T any](items []T, count, offset int) PaginatedResponse`. -/
def PaginateResults {α : Type} (items : List α) (count offset : Int) :
    PaginatedResponse α :=
  let total : Int := items.length
  let endIndex := offset + count
  if offset ≥ total then
    { data := []
      pagination :=
        { total := total, offset := offset, count := 0
          requestedCount := count, hasMore := false } }
  else
    let endIndex := if endIndex > total then total else endIndex
    let paginatedItems := goSlice items offset endIndex
    { data := paginatedItems
      pagination :=
        { total := total, offset := offset, count := paginatedItems.length
          requestedCount := count, hasMore := endIndex < total } }

/-! ## Go string helpers used by `pkg/mcp/formatter.go` -/
/-- Go `strings.HasPrefix(s, prefix)`. -/
def goHasPrefix (s pre : GoStr) : Bool := pre.isPrefixOf s

/-- Go `strings.TrimPrefix(s, prefix)`. -/
def goTrimPrefix (s pre : GoStr) : GoStr :=
  if goHasPrefix s pre then s.drop pre.length else s

/-- Go `strings.Contains(s, sub)`. -/
def goContains : GoStr → GoStr → Bool
  | [], sub => sub.isEmpty
  | c :: rest, sub => sub.isPrefixOf (c :: rest) || goContains rest sub

/-! ## Tool catalog client (`pkg/mcp/formatter.go`) -/
/-- Argument / JSON values flowing through the tool client
(`map[string]interface{}` values). Non-string, non-integer values are kept
opaque behind a tag. -/
inductive GoVal where
  | str (s : GoStr)
  | int (n : Int)
  | boxed (tag : Nat)
deriving DecidableEq, Repr

/-- Struct `Tool` from formatter.go. -/
structure Tool where
  name : GoStr
  description : GoStr
  inputSchema : List (GoStr × GoVal)
deriving DecidableEq, Repr

/-- The namespaced tool name produced by `DiscoverTools`
(`fmt.Sprintf("%s__%s", c.serverType, name)` for non-"grafana" clients). -/
def namespacedName (serverType raw : GoStr) : GoStr :=
  if serverType ≠ gs "grafana" then serverType ++ gs "__" ++ raw else raw

/-- The per-list renaming loop of `DiscoverTools`. -/
def namespaceTools (serverType : GoStr) (tools : List Tool) : List Tool :=
  if serverType ≠ gs "grafana" then
    tools.map (fun t => { t with name := serverType ++ gs "__" ++ t.name })
  else
    tools

/-- The `actualName` computed at the top of `InvokeTool`: strip the provider's
prefix when this is not the "grafana" client. -/
def invokeActualName (serverType name : GoStr) : GoStr :=
  if serverType ≠ gs "grafana" then goTrimPrefix name (serverType ++ gs "__") else name

deriving instance DecidableEq for Except

/-- Cached state of one `mcp.Client` (`tools []Tool`, nil at creation). -/
structure MCPClientState where
  tools : List Tool
deriving DecidableEq, Repr

/-- One call to `Client.DiscoverTools`, with the provider's `tools/list`
response (or transport/unmarshal failure) supplied as `resp`. Returns the
new client state, the Go return value, and whether a network request was
issued (`true` iff the `POST` was sent). -/
def DiscoverTools (serverType : GoStr) (s : MCPClientState)
    (resp : Except GoStr (List Tool)) :
    MCPClientState × Except GoStr (List Tool) × Bool :=
  if s.tools.length > 0 then
    (s, .ok s.tools, false)
  else
    match resp with
    | .error e => (s, .error (gs "failed to discover tools: " ++ e), true)
    | .ok rawTools =>
      let named := namespaceTools serverType rawTools
      ({ tools := named }, .ok named, true)

/-! ## Argument normalization (`pkg/mcp/formatter.go`) -/
/-- Decimal value of a digit string (the integer `fmt.Sscanf` produces from
the digits it consumed). -/
def digitsVal (l : GoStr) : Nat := l.foldl (fun a c => a * 10 + (c.toNat - 48)) 0

/-- The run of leading decimal digits, or `none` if there is none. -/
def scanDigits (s : GoStr) : Option Nat :=
  let ds := s.takeWhile (fun c => c.isDigit)
  if ds.isEmpty then none else some (digitsVal ds)

/-- Go `fmt.Sscanf(value, "%d", &count)`: skip blanks, optional sign, then at
least one decimal digit; trailing non-digit input is left unconsumed and is
not an error. -/
def goScanInt (s : GoStr) : Option Int :=
  match s.dropWhile (fun c => c = ' ') with
  | [] => none
  | c :: r =>
    if c = '-' then (scanDigits r).map (fun n => -(n : Int))
    else if c = '+' then (scanDigits r).map (fun n => (n : Int))
    else (scanDigits (c :: r)).map (fun n => (n : Int))

/-- Function `parseDuration(s string)` from formatter.go, in seconds. The `default:`
branch of its unit switch calls the external Go library function
`time.ParseDuration`, supplied here as the parameter `tpd`. -/
def parseDuration (tpd : GoStr → Option Int) (s : GoStr) : Option Int :=
  if s.length < 2 then none
  else
    let unit := s.getLast?.getD ' '
    let value := s.dropLast
    let mult : Option Int :=
      if unit = 's' then some 1
      else if unit = 'm' then some 60
      else if unit = 'h' then some 3600
      else if unit = 'd' then some 86400
      else none
    match mult with
    | none => tpd s
    | some m =>
      match goScanInt value with
      | none => none
      | some count => some (count * m)

/-- Function `parseRelativeTime(relative string)` from formatter.go: the resulting
absolute instant in epoch seconds (`now.Add(±d)`); the RFC3339 rendering is
applied by the caller via an explicit formatter parameter. -/
def parseRelativeTime (tpd : GoStr → Option Int) (now : Int) (relative : GoStr) :
    Option Int :=
  if goHasPrefix relative (gs "now-") then
    match parseDuration tpd (goTrimPrefix relative (gs "now-")) with
    | none => none
    | some d => some (now - d)
  else if goHasPrefix relative (gs "now+") then
    match parseDuration tpd (goTrimPrefix relative (gs "now+")) with
    | none => none
    | some d => some (now + d)
  else none

/-- Go `strings.ToUpper(p[:1]) + p[1:]` for a non-empty segment. -/
def capitalize : GoStr → GoStr
  | [] => []
  | c :: rest => c.toUpper :: rest

/-- Function `toCamelCase(s string)` from formatter.go. -/
def toCamelCase (s : GoStr) : GoStr :=
  let parts := List.splitOn '_' s
  if parts.length = 1 then s
  else
    (parts.drop 1).foldl
      (fun result p => if p.length > 0 then result ++ capitalize p else result)
      (parts.headD [])

/-- Go map assignment `m[k] = v` on the association-list model. -/
def mapSet : List (GoStr × GoVal) → GoStr → GoVal → List (GoStr × GoVal)
  | [], k, v => [(k, v)]
  | p :: rest, k, v => if p.1 = k then (k, v) :: rest else p :: mapSet rest k v

/-- Go map read `m[k]` (with presence flag). -/
def mapLookup (m : List (GoStr × GoVal)) (k : GoStr) : Option GoVal :=
  match m with
  | [] => none
  | p :: rest => if p.1 = k then some p.2 else mapLookup rest k

/-- The key/value pair one loop iteration of `normalizeArguments` writes for
the argument entry `kv`: a successfully parsed `now±...` string value is
substituted (same key); otherwise the "grafana" client camel-cases
underscore keys and every other case passes the pair through. -/
def normEntry (tpd : GoStr → Option Int) (fmtT : Int → GoStr) (now : Int)
    (serverType : GoStr) (kv : GoStr × GoVal) : GoStr × GoVal :=
  let camel : GoStr × GoVal :=
    if serverType = gs "grafana" ∧ goContains kv.1 (gs "_") = true then
      (toCamelCase kv.1, kv.2)
    else kv
  match kv.2 with
  | .str strVal =>
    if goHasPrefix strVal (gs "now-") || goHasPrefix strVal (gs "now+") then
      match parseRelativeTime tpd now strVal with
      | some t => (kv.1, .str (fmtT t))
      | none => camel
    else camel
  | _ => camel

/-- One iteration of the `normalizeArguments` loop: write the entry chosen
by `normEntry` into the accumulator map. -/
def normStep (tpd : GoStr → Option Int) (fmtT : Int → GoStr) (now : Int)
    (serverType : GoStr) (m : List (GoStr × GoVal)) (kv : GoStr × GoVal) :
    List (GoStr × GoVal) :=
  mapSet m (normEntry tpd fmtT now serverType kv).1 (normEntry tpd fmtT now serverType kv).2

/-- Function `normalizeArguments(toolName string, args map[string]interface{})` from
formatter.go. `tpd` embeds `time.ParseDuration`, `fmtT` embeds
`Format(time.RFC3339)` (both external library code), `now` is `time.Now()`
in epoch seconds. -/
def normalizeArguments (tpd : GoStr → Option Int) (fmtT : Int → GoStr) (now : Int)
    (serverType toolName : GoStr) (args : List (GoStr × GoVal)) :
    List (GoStr × GoVal) :=
  let normalized := args.foldl (normStep tpd fmtT now serverType) []
  if goContains toolName (gs "prometheus") = true ∧ goContains toolName (gs "range") = true then
    if (mapLookup normalized (gs "stepSeconds")).isNone then
      mapSet normalized (gs "stepSeconds") (.int 60)
    else normalized
  else normalized

/-! ### Relative-time parsing lemmas -/
/-- Seconds per unit for the four units of `parseDuration`'s switch. -/
def unitMult (u : Char) : Int :=
  if u = 's' then 1 else if u = 'm' then 60 else if u = 'h' then 3600 else 86400

/-- Does `normalizeArguments` substitute this value as a relative-time
string? (the guard of its first branch). -/
def resolvesRel (tpd : GoStr → Option Int) (now : Int) : GoVal → Bool
  | .str s => (goHasPrefix s (gs "now-") || goHasPrefix s (gs "now+")) &&
      (parseRelativeTime tpd now s).isSome
  | _ => false

/-! ## Session memory (`pkg/agent/memory.go`) -/
/-- Struct `Message` from memory.go. -/
structure Message where
  role : GoStr
  content : GoStr
deriving DecidableEq, Repr

/-- Struct `ConversationMemory` from memory.go (lock elided: the embedding
is sequential). -/
structure ConversationMemory where
  messages : List Message
  totalChars : Int
  maxMessages : Int
  maxCharacters : Int
deriving DecidableEq, Repr

def DefaultMaxMessages : Int := 100

def DefaultMaxCharacters : Int := 100000

/-- Struct `MemoryConfig` from memory.go. -/
structure MemoryConfig where
  maxMessages : Int
  maxCharacters : Int
deriving DecidableEq, Repr

/-- Constructor `NewConversationMemoryWithConfig` from memory.go. -/
def NewConversationMemoryWithConfig (config : MemoryConfig) : ConversationMemory :=
  { messages := []
    totalChars := 0
    maxMessages := if config.maxMessages = 0 then DefaultMaxMessages else config.maxMessages
    maxCharacters := if config.maxCharacters = 0 then DefaultMaxCharacters else config.maxCharacters }

/-- Constructor `NewConversationMemory` from memory.go. -/
def NewConversationMemory : ConversationMemory :=
  NewConversationMemoryWithConfig ⟨DefaultMaxMessages, DefaultMaxCharacters⟩

/-- The `for len(m.messages) > m.maxMessages` loop of `trimToMessageLimit`. -/
def trimMsgLoop (maxM : Int) : List Message → Int → List Message × Int
  | [], total => ([], total)
  | m0 :: rest, total =>
    if ((m0 :: rest).length : Int) > maxM then
      trimMsgLoop maxM rest (total - m0.content.length)
    else (m0 :: rest, total)

/-- Function `trimToMessageLimit` from memory.go. -/
def trimToMessageLimit (m : ConversationMemory) : ConversationMemory :=
  if m.maxMessages ≤ 0 then m
  else
    { m with messages := (trimMsgLoop m.maxMessages m.messages m.totalChars).1
             totalChars := (trimMsgLoop m.maxMessages m.messages m.totalChars).2 }

/-- The `for m.totalChars > m.maxCharacters && len(m.messages) > 1` loop of
`trimToCharacterLimit`. -/
def trimCharLoop (maxC : Int) : List Message → Int → List Message × Int
  | [], total => ([], total)
  | [m0], total => ([m0], total)
  | m0 :: m1 :: rest, total =>
    if total > maxC then trimCharLoop maxC (m1 :: rest) (total - m0.content.length)
    else (m0 :: m1 :: rest, total)

/-- Function `trimToCharacterLimit` from memory.go. -/
def trimToCharacterLimit (m : ConversationMemory) : ConversationMemory :=
  if m.maxCharacters ≤ 0 then m
  else
    { m with messages := (trimCharLoop m.maxCharacters m.messages m.totalChars).1
             totalChars := (trimCharLoop m.maxCharacters m.messages m.totalChars).2 }

/-- Function `AddMessage` from memory.go. -/
def AddMessage (m : ConversationMemory) (role content : GoStr) : ConversationMemory :=
  trimToCharacterLimit (trimToMessageLimit
    { m with messages := m.messages ++ [⟨role, content⟩]
             totalChars := m.totalChars + content.length })

/-- Function `Clear` from memory.go. -/
def Clear (m : ConversationMemory) : ConversationMemory :=
  { m with messages := [], totalChars := 0 }

/-- Function `GetMessages` from memory.go (the defensive copy is identity here). -/
def GetMessages (m : ConversationMemory) : List Message := m.messages

/-- Total character count of a message list (the quantity `totalChars`
tracks). -/
def sumLen (l : List Message) : Int := ((l.map (fun msg => msg.content.length)).sum : Nat)

/-- Repeated `AddMessage` of a batch of (role, content) pairs. -/
def addAll (mem : ConversationMemory) (batch : List (GoStr × GoStr)) : ConversationMemory :=
  batch.foldl (fun m rc => AddMessage m rc.1 rc.2) mem

/-- The newest `M` entries of a list (all of it when it is shorter). -/
def window (M : Nat) (l : List Message) : List Message := l.drop (l.length - M)

/-! ## Stream orchestrator (`pkg/llm/openai.go`, `StreamChat`) -/
/-- One tool-call fragment inside a provider delta
(`openai.ToolCall` with `Index *int` as it appears in stream deltas). -/
structure ToolCallDelta where
  index : Option Nat
  id : GoStr
  ctype : GoStr
  fname : GoStr
  farguments : GoStr
deriving DecidableEq, Repr

/-- An accumulated tool call (`openai.ToolCall` as stored in `toolCalls`). -/
structure ToolCall where
  id : GoStr
  ctype : GoStr
  fname : GoStr
  farguments : GoStr
deriving DecidableEq, Repr

/-- The zero `openai.ToolCall{}` appended while growing the accumulator. -/
def emptyToolCall : ToolCall := ⟨[], [], [], []⟩

/-- One streamed delta (`response.Choices[0].Delta`). -/
structure Delta where
  content : GoStr
  toolCalls : List ToolCallDelta
deriving DecidableEq, Repr

/-- One provider stream response (its list of choices; `StreamChat` reads
`Choices[0].Delta` and skips responses with no choices). -/
structure StreamResponse where
  choices : List Delta
deriving DecidableEq, Repr

/-- How the provider stream ends: normal completion (`io.EOF`) or a
transport error from `stream.Recv()`. -/
inductive StreamEnd where
  | eof
  | recvError (msg : GoStr)
deriving DecidableEq, Repr

/-- Struct `StreamChunk` from openai.go, as the tagged union its `Type` field
encodes. The orchestrator itself never fills `Result`, so `tool` carries
only name and arguments here. -/
inductive StreamChunk where
  | start
  | token (text : GoStr)
  | tool (name : GoStr) (args : List (GoStr × GoVal))
  | error (message : GoStr)
  | complete (text : GoStr)
  | done
deriving DecidableEq, Repr

/-- The `for len(toolCalls) <= idx` growing loop. -/
def growTo (calls : List ToolCall) (idx : Nat) : List ToolCall :=
  calls ++ List.replicate (idx + 1 - calls.length) emptyToolCall

/-- Merging one tool-call fragment into the accumulator (the body of the
`for _, tc := range delta.ToolCalls` loop): id/type/name overwritten when
non-empty, argument text appended; fragments without an index are skipped. -/
def applyFragment (calls : List ToolCall) (tc : ToolCallDelta) : List ToolCall :=
  match tc.index with
  | none => calls
  | some idx =>
    let grown := growTo calls idx
    let old := grown.getD idx emptyToolCall
    grown.set idx
      { id := if tc.id ≠ [] then tc.id else old.id
        ctype := if tc.ctype ≠ [] then tc.ctype else old.ctype
        fname := if tc.fname ≠ [] then tc.fname else old.fname
        farguments := if tc.farguments ≠ [] then old.farguments ++ tc.farguments
          else old.farguments }

/-- Orchestrator state carried through the receive loop: the accumulated
full text and the pending tool calls. -/
structure StreamState where
  fullContent : GoStr
  toolCalls : List ToolCall
deriving DecidableEq, Repr

/-- Processing of one received response: emit a `token` chunk for non-empty
content and merge any tool-call fragments; responses without choices are
skipped. -/
def procResponse (st : StreamState) (resp : StreamResponse) :
    StreamState × List StreamChunk :=
  match resp.choices with
  | [] => (st, [])
  | delta :: _ =>
    (⟨if delta.content ≠ [] then st.fullContent ++ delta.content else st.fullContent,
      delta.toolCalls.foldl applyFragment st.toolCalls⟩,
     if delta.content ≠ [] then [StreamChunk.token delta.content] else [])

/-- The receive loop over the whole delta sequence. -/
def procResponses : StreamState → List StreamResponse → StreamState × List StreamChunk
  | st, [] => (st, [])
  | st, r :: rest =>
    ((procResponses (procResponse st r).1 rest).1,
     (procResponse st r).2 ++ (procResponses (procResponse st r).1 rest).2)

/-- The post-stream tool-call loop: skip accumulated calls with an empty
name, emit an `error` chunk when the accumulated argument text fails to
parse as JSON (and continue), otherwise emit a `tool` chunk. `parse` embeds
`json.Unmarshal` into a `map[string]interface{}`. -/
def toolChunkStep (parse : GoStr → Except GoStr (List (GoStr × GoVal)))
    (acc : List StreamChunk) (tc : ToolCall) : List StreamChunk :=
  if tc.fname = [] then acc
  else
    match parse tc.farguments with
    | .error e => acc ++ [.error (gs "Failed to parse tool arguments: " ++ e)]
    | .ok args => acc ++ [.tool tc.fname args]

/-- The post-stream tool-call loop as a fold of `toolChunkStep`. -/
def toolChunks (parse : GoStr → Except GoStr (List (GoStr × GoVal)))
    (calls : List ToolCall) : List StreamChunk :=
  calls.foldl (toolChunkStep parse) []

/-- The full chunk sequence one `StreamChat` turn emits: `start`, then the
loop chunks; on a transport error an `error` chunk and an immediate return;
on EOF the accumulated tool calls, `complete` with the full text, and
`done`. -/
def streamChatChunks (parse : GoStr → Except GoStr (List (GoStr × GoVal)))
    (resps : List StreamResponse) (ending : StreamEnd) : List StreamChunk :=
  match ending with
  | .recvError msg =>
    .start :: (procResponses ⟨[], []⟩ resps).2 ++ [.error (gs "Stream error: " ++ msg)]
  | .eof =>
    .start :: (procResponses ⟨[], []⟩ resps).2 ++
      toolChunks parse (procResponses ⟨[], []⟩ resps).1.toolCalls ++
      [.complete (procResponses ⟨[], []⟩ resps).1.fullContent, .done]

/-! ## Dashboard context injection (`pkg/plugin/resources.go`) -/
/-- Struct `DashboardContext` from pkg/plugin (`TimeRange map[string]string`
modelled with `none` for the nil map). -/
structure DashboardContext where
  uid : GoStr
  name : GoStr
  folder : GoStr
  tags : List GoStr
  timeRange : Option (List (GoStr × GoStr))
deriving DecidableEq, Repr

/-- Go map read `m[k]` on a string map: the zero value `""` when absent. -/
def strMapGet (m : List (GoStr × GoStr)) (k : GoStr) : GoStr :=
  match m with
  | [] => []
  | p :: rest => if p.1 = k then p.2 else strMapGet rest k

/-- Go `fmt.Sprintf("%v", tags)` for a `[]string`. -/
def goFmtStrSlice (tags : List GoStr) : GoStr :=
  '[' :: (List.intercalate [' '] tags ++ [']'])

/-- Function `buildContextualMessage` from resources.go. -/
def buildContextualMessage (userMessage : GoStr) (ctx : Option DashboardContext) : GoStr :=
  match ctx with
  | none => userMessage
  | some c =>
    let parts : List GoStr := [gs "[Dashboard Context]"]
    let parts := if c.name ≠ [] then parts ++ [gs "Name: " ++ c.name] else parts
    let parts := if c.uid ≠ [] then parts ++ [gs "UID: " ++ c.uid] else parts
    let parts := if c.folder ≠ [] then parts ++ [gs "Folder: " ++ c.folder] else parts
    let parts := if c.tags.length > 0 then
        parts ++ [gs "Tags: " ++ goFmtStrSlice c.tags] else parts
    let parts :=
      match c.timeRange with
      | some tr =>
        if tr.length > 0 then
          if strMapGet tr (gs "from") ≠ [] ∧ strMapGet tr (gs "to") ≠ [] then
            parts ++ [gs "Time Range: " ++ strMapGet tr (gs "from") ++
              gs " to " ++ strMapGet tr (gs "to")]
          else parts
        else parts
      | none => parts
    if parts.length > 1 then
      List.intercalate (gs "\n") parts ++ gs "\n\n" ++ userMessage
    else userMessage

/-- C5: `ValidatePaginationParams` fails with `invalidCount` iff `count < 1`
or `count > maxCount`, fails with `invalidOffset` iff `offset < 0` and the
count checks passed, and on a valid triple returns `(count, offset)`
unchanged; there is no other validation. -/
theorem validate_pagination_params_spec (count offset maxCount : Int) :
    ((∃ c m, ValidatePaginationParams count offset maxCount = .error (.invalidCount c m)) ↔
      (count < 1 ∨ count > maxCount)) ∧
    ((∃ o, ValidatePaginationParams count offset maxCount = .error (.invalidOffset o)) ↔
      (¬(count < 1 ∨ count > maxCount) ∧ offset < 0)) ∧
    (ValidatePaginationParams count offset maxCount = .ok (count, offset) ↔
      (1 ≤ count ∧ count ≤ maxCount ∧ 0 ≤ offset)) := by
  unfold ValidatePaginationParams
  by_cases h1 : count < 1
  · simp [h1]
  · by_cases h2 : count > maxCount
    · simp [h1, h2]
    · by_cases h3 : offset < 0
      · simp [h1, h2, h3]
      · simp [h1, h2, h3]
        omega

/-- C4: windowing behaviour of `PaginateResults`: out-of-range offsets give an
empty window with `count = 0` and `hasMore = false`; otherwise the data is
`S[offset : min (offset+count) (len S)]`, `count = len data =
min count (len S - offset)`, `hasMore = (offset + count < len S)`, and the
envelope records `total`, `offset` and `requestedCount` verbatim. -/
theorem paginate_results_spec {α : Type} (S : List α) (count offset : Int)
    (hc : 1 ≤ count) (ho : 0 ≤ offset) :
    (offset ≥ (S.length : Int) →
      PaginateResults S count offset =
        { data := []
          pagination :=
            { total := S.length, offset := offset, count := 0
              requestedCount := count, hasMore := false } }) ∧
    (offset < (S.length : Int) →
      (PaginateResults S count offset).data =
          goSlice S offset (min (offset + count) (S.length : Int)) ∧
      (PaginateResults S count offset).pagination.count =
          ((PaginateResults S count offset).data.length : Int) ∧
      (PaginateResults S count offset).pagination.count =
          min count ((S.length : Int) - offset) ∧
      ((PaginateResults S count offset).pagination.hasMore = true ↔
          offset + count < (S.length : Int)) ∧
      (PaginateResults S count offset).pagination.total = (S.length : Int) ∧
      (PaginateResults S count offset).pagination.offset = offset ∧
      (PaginateResults S count offset).pagination.requestedCount = count) := by
  constructor
  · intro h
    unfold PaginateResults
    rw [if_pos h]
  · intro h
    have hlt : ¬ offset ≥ (S.length : Int) := by omega
    have hmin : (if offset + count > (S.length : Int) then (S.length : Int)
        else offset + count) = min (offset + count) (S.length : Int) := by
      split <;> omega
    unfold PaginateResults
    simp only [if_neg hlt, hmin]
    refine ⟨trivial, trivial, ?_, ?_, trivial, trivial, trivial⟩
    · unfold goSlice
      simp only [List.length_drop, List.length_take]
      omega
    · simp only [decide_eq_true_eq]
      omega

/-- Witness for `paginate_results_spec` at a concrete slice and window. -/
theorem paginate_results_spec_witness :
    (PaginateResults ([10, 20, 30, 40] : List Int) 2 1).pagination.count =
      min 2 (((([10, 20, 30, 40] : List Int)).length : Int) - 1) :=
  ((paginate_results_spec ([10, 20, 30, 40] : List Int) 2 1 (by norm_num)
    (by norm_num)).2 (by norm_num)).2.2.1

/-- C6: namespacing is a reversible round-trip. For a non-"grafana" provider
every raw name is exposed as `serverType ++ "__" ++ raw` and `InvokeTool`
strips exactly that prefix back off; the "grafana" provider's names are
exposed and sent unchanged. -/
theorem tool_namespacing_roundtrip (serverType raw n : GoStr) (tools : List Tool) :
    (serverType ≠ gs "grafana" →
      namespacedName serverType raw = serverType ++ gs "__" ++ raw ∧
      invokeActualName serverType (namespacedName serverType raw) = raw ∧
      namespaceTools serverType tools =
        tools.map (fun t => { t with name := namespacedName serverType t.name })) ∧
    (namespacedName (gs "grafana") raw = raw ∧
      invokeActualName (gs "grafana") n = n ∧
      namespaceTools (gs "grafana") tools = tools) := by
  constructor
  · intro h
    refine ⟨by simp [namespacedName, h], ?_, ?_⟩
    · unfold invokeActualName namespacedName goTrimPrefix goHasPrefix
      simp only [h, if_pos, ne_eq, not_false_iff, ite_true]
      rw [List.append_assoc]
      rw [if_pos (by simp [List.isPrefixOf_iff_prefix])]
      have : serverType ++ (gs "__" ++ raw) = (serverType ++ gs "__") ++ raw := by
        simp [List.append_assoc]
      rw [this, List.drop_left' (by simp)]
    · unfold namespaceTools namespacedName
      simp [h]
  · refine ⟨by simp [namespacedName], by simp [invokeActualName], by simp [namespaceTools]⟩

/-- Witness for `tool_namespacing_roundtrip`: provider `alertmanager`,
tool `list_alerts`. -/
theorem tool_namespacing_roundtrip_witness :
    invokeActualName (gs "alertmanager")
      (namespacedName (gs "alertmanager") (gs "list_alerts")) = gs "list_alerts" :=
  ((tool_namespacing_roundtrip (gs "alertmanager") (gs "list_alerts") [] []).1
    (by decide)).2.1

/-- C9 counterexample: a `DiscoverTools` call that succeeds with an empty
tool catalog does not populate the cache, so the next call issues another
`tools/list` request (and can even return a different list), contradicting
"after any call to DiscoverTools that succeeds, every subsequent call
returns the cached list without issuing another tools/list request". -/
theorem discover_tools_empty_success_not_cached :
    (DiscoverTools (gs "alertmanager") ⟨[]⟩ (.ok [])).2.1 = .ok [] ∧
    (DiscoverTools (gs "alertmanager") (DiscoverTools (gs "alertmanager") ⟨[]⟩ (.ok [])).1
      (.ok [⟨gs "list_alerts", gs "List alerts", []⟩])).2.2 = true ∧
    (DiscoverTools (gs "alertmanager") (DiscoverTools (gs "alertmanager") ⟨[]⟩ (.ok [])).1
      (.ok [⟨gs "list_alerts", gs "List alerts", []⟩])).2.1 ≠ .ok [] := by
  refine ⟨rfl, rfl, ?_⟩
  decide

/-- C9 (amended): after a `DiscoverTools` call that succeeds with a
*non-empty* tool list, every subsequent call returns that cached namespaced
list, issues no further `tools/list` request, and leaves the cache
unchanged (the cache is never invalidated). A successful discovery of zero
tools is not cached. -/
theorem discover_tools_cached_once (serverType : GoStr) (s : MCPClientState)
    (resp : Except GoStr (List Tool)) (ts : List Tool)
    (hok : (DiscoverTools serverType s resp).2.1 = .ok ts) (hne : ts ≠ []) :
    ∀ resp', DiscoverTools serverType (DiscoverTools serverType s resp).1 resp' =
      ((DiscoverTools serverType s resp).1, .ok ts, false) := by
  intro resp'
  unfold DiscoverTools at hok ⊢
  by_cases hs : s.tools.length > 0
  · simp only [if_pos hs] at hok ⊢
    simp only [Except.ok.injEq] at hok
    subst hok
    simp [if_pos hs]
  · simp only [if_neg hs] at hok ⊢
    match resp with
    | .error e => simp at hok
    | .ok rawTools =>
      simp only [Except.ok.injEq] at hok
      subst hok
      have hlen : (namespaceTools serverType rawTools).length > 0 := by
        cases hts : namespaceTools serverType rawTools with
        | nil => exact absurd hts hne
        | cons a l => simp
      simp [hlen]

/-- Witness for `discover_tools_cached_once`: one successful non-empty
discovery, then a second call that is served from the cache. -/
theorem discover_tools_cached_once_witness :
    DiscoverTools (gs "alertmanager")
      (DiscoverTools (gs "alertmanager") ⟨[]⟩
        (.ok [⟨gs "list_alerts", gs "List alerts", []⟩])).1
      (.error (gs "network down")) =
    ((DiscoverTools (gs "alertmanager") ⟨[]⟩
        (.ok [⟨gs "list_alerts", gs "List alerts", []⟩])).1,
     .ok [⟨gs "alertmanager__list_alerts", gs "List alerts", []⟩], false) :=
  discover_tools_cached_once (gs "alertmanager") ⟨[]⟩
    (.ok [⟨gs "list_alerts", gs "List alerts", []⟩])
    [⟨gs "alertmanager__list_alerts", gs "List alerts", []⟩]
    (by decide) (by decide) (.error (gs "network down"))

/-! ### Association-list map lemmas -/
theorem mapLookup_mapSet_self (m : List (GoStr × GoVal)) (k : GoStr) (v : GoVal) :
    mapLookup (mapSet m k v) k = some v := by
  induction m with
  | nil => simp [mapSet, mapLookup]
  | cons p rest ih =>
    by_cases h : p.1 = k
    · simp [mapSet, h, mapLookup]
    · simp [mapSet, h, mapLookup, ih]

theorem mapLookup_mapSet_ne (m : List (GoStr × GoVal)) (k k' : GoStr) (v : GoVal)
    (h : k' ≠ k) : mapLookup (mapSet m k v) k' = mapLookup m k' := by
  have h' : ¬ k = k' := fun hh => h hh.symm
  induction m with
  | nil => simp [mapSet, mapLookup, h']
  | cons p rest ih =>
    by_cases hp : p.1 = k
    · subst hp
      have hpk : ¬ p.1 = k' := h'
      simp [mapSet, mapLookup, h', hpk]
    · by_cases hp' : p.1 = k'
      · simp [mapSet, hp, mapLookup, hp', h, ih]
      · simp [mapSet, hp, mapLookup, hp', ih]

/-- Folding `normStep` over entries none of which normalize to key `q`
leaves the binding of `q` untouched. -/
theorem foldl_normStep_lookup_ne (tpd : GoStr → Option Int) (fmtT : Int → GoStr)
    (now : Int) (st : GoStr) (args : List (GoStr × GoVal))
    (m : List (GoStr × GoVal)) (q : GoStr)
    (h : ∀ kv ∈ args, (normEntry tpd fmtT now st kv).1 ≠ q) :
    mapLookup (args.foldl (normStep tpd fmtT now st) m) q = mapLookup m q := by
  induction args generalizing m with
  | nil => rfl
  | cons kv rest ih =>
    simp only [List.foldl_cons]
    rw [ih _ (fun x hx => h x (List.mem_cons_of_mem _ hx))]
    exact mapLookup_mapSet_ne _ _ _ _ (Ne.symm (h kv (List.mem_cons_self _ _)))

/-- Looking up the normalized key of an argument entry in the full
`normalizeArguments` output returns its normalized value, provided no later
entry normalizes to the same key. -/
theorem normalizeArguments_lookup (tpd : GoStr → Option Int) (fmtT : Int → GoStr)
    (now : Int) (st tn : GoStr) (pre post : List (GoStr × GoVal))
    (kv : GoStr × GoVal)
    (hpost : ∀ x ∈ post,
      (normEntry tpd fmtT now st x).1 ≠ (normEntry tpd fmtT now st kv).1) :
    mapLookup (normalizeArguments tpd fmtT now st tn (pre ++ kv :: post))
        (normEntry tpd fmtT now st kv).1 =
      some (normEntry tpd fmtT now st kv).2 := by
  have hbase : mapLookup ((pre ++ kv :: post).foldl (normStep tpd fmtT now st) [])
      (normEntry tpd fmtT now st kv).1 = some (normEntry tpd fmtT now st kv).2 := by
    rw [List.foldl_append, List.foldl_cons]
    rw [foldl_normStep_lookup_ne _ _ _ _ _ _ _ hpost]
    exact mapLookup_mapSet_self _ _ _
  simp only [normalizeArguments]
  split
  · split
    · rename_i hcond hnone
      by_cases hq : (normEntry tpd fmtT now st kv).1 = gs "stepSeconds"
      · rw [hq] at hbase
        rw [hbase] at hnone
        simp at hnone
      · rw [mapLookup_mapSet_ne _ _ _ _ hq]
        exact hbase
    · exact hbase
  · exact hbase

theorem takeWhile_of_all {p : Char → Bool} {l : GoStr} (h : ∀ c ∈ l, p c = true) :
    l.takeWhile p = l := by
  induction l with
  | nil => rfl
  | cons c rest ih =>
    rw [List.takeWhile_cons, h c (List.mem_cons_self _ _)]
    simp [ih (fun x hx => h x (List.mem_cons_of_mem _ hx))]

theorem goScanInt_digits (ds : GoStr) (hne : ds ≠ [])
    (hdig : ∀ c ∈ ds, c.isDigit = true) :
    goScanInt ds = some (digitsVal ds : Int) := by
  match ds, hne with
  | c :: rest, _ =>
    have hc : c.isDigit = true := hdig c (List.mem_cons_self _ _)
    have hsp : ¬ (c = ' ') := by rintro rfl; simp at hc
    have hminus : ¬ (c = '-') := by rintro rfl; simp at hc
    have hplus : ¬ (c = '+') := by rintro rfl; simp at hc
    unfold goScanInt
    rw [List.dropWhile_cons]
    simp only [decide_eq_true_eq, hsp, if_false, if_neg hsp, if_neg hminus, if_neg hplus]
    unfold scanDigits
    rw [takeWhile_of_all hdig]
    simp

theorem parseDuration_wf (tpd : GoStr → Option Int) (ds : GoStr) (u : Char)
    (hne : ds ≠ []) (hdig : ∀ c ∈ ds, c.isDigit = true)
    (hu : u = 's' ∨ u = 'm' ∨ u = 'h' ∨ u = 'd') :
    parseDuration tpd (ds ++ [u]) = some ((digitsVal ds : Int) * unitMult u) := by
  have hlen : ¬ ((ds ++ [u]).length < 2) := by
    have : 1 ≤ ds.length := by
      cases ds with
      | nil => exact absurd rfl hne
      | cons a l => simp
    simp [List.length_append]
    omega
  unfold parseDuration
  rw [if_neg hlen]
  simp only [List.getLast?_concat, Option.getD_some, List.dropLast_concat]
  rw [goScanInt_digits ds hne hdig]
  rcases hu with rfl | rfl | rfl | rfl <;> simp [unitMult]

theorem parseRelativeTime_now_minus (tpd : GoStr → Option Int) (now : Int)
    (ds : GoStr) (u : Char) (hne : ds ≠ []) (hdig : ∀ c ∈ ds, c.isDigit = true)
    (hu : u = 's' ∨ u = 'm' ∨ u = 'h' ∨ u = 'd') :
    parseRelativeTime tpd now (gs "now-" ++ (ds ++ [u])) =
      some (now - (digitsVal ds : Int) * unitMult u) := by
  have hpre : goHasPrefix (gs "now-" ++ (ds ++ [u])) (gs "now-") = true := by
    simp [goHasPrefix, List.isPrefixOf_iff_prefix, List.prefix_append]
  unfold parseRelativeTime
  rw [if_pos hpre]
  unfold goTrimPrefix
  rw [if_pos hpre, List.drop_left]
  rw [parseDuration_wf tpd ds u hne hdig hu]

theorem parseRelativeTime_now_plus (tpd : GoStr → Option Int) (now : Int)
    (ds : GoStr) (u : Char) (hne : ds ≠ []) (hdig : ∀ c ∈ ds, c.isDigit = true)
    (hu : u = 's' ∨ u = 'm' ∨ u = 'h' ∨ u = 'd') :
    parseRelativeTime tpd now (gs "now+" ++ (ds ++ [u])) =
      some (now + (digitsVal ds : Int) * unitMult u) := by
  have hpre : goHasPrefix (gs "now+" ++ (ds ++ [u])) (gs "now+") = true := by
    simp [goHasPrefix, List.isPrefixOf_iff_prefix, List.prefix_append]
  have hnotminus : goHasPrefix (gs "now+" ++ (ds ++ [u])) (gs "now-") = false := by
    show List.isPrefixOf ['n', 'o', 'w', '-'] ('n' :: 'o' :: 'w' :: '+' :: (ds ++ [u])) = false
    simp [List.isPrefixOf]
  unfold parseRelativeTime
  rw [hnotminus]
  simp only [Bool.false_eq_true, if_false]
  rw [if_pos hpre]
  unfold goTrimPrefix
  rw [if_pos hpre, List.drop_left]
  rw [parseDuration_wf tpd ds u hne hdig hu]

/-- C7 counterexample: the malformed relative expression `"now-1h30m"`
(not of the form `now±<number><unit>`) is *not* passed through unmodified:
`parseDuration` reads only the leading integer `1` and the final unit `m`,
so the value is substituted with the timestamp 60 seconds before now. -/
theorem normalize_malformed_not_passed_through :
    normalizeArguments (fun _ => none) (fun t => gs (toString t)) 0
        (gs "alertmanager") (gs "q") [(gs "start", .str (gs "now-1h30m"))] =
      [(gs "start", .str (gs "-60"))] ∧
    ¬ normalizeArguments (fun _ => none) (fun t => gs (toString t)) 0
        (gs "alertmanager") (gs "q") [(gs "start", .str (gs "now-1h30m"))] =
      [(gs "start", .str (gs "now-1h30m"))] := by decide

/-- C7 (amended): a string value of the exact form `now±<digits><unit>`
(unit `s`/`m`/`h`/`d`) is substituted in place, under the same key, with the
formatted instant `now ∓ digits·unit` (in particular `"now-1h"` becomes the
formatted instant exactly 3600 seconds before now); a string that does not
start with `now-`/`now+`, or whose duration suffix fails to parse, is
passed through with its value unmodified. (Unlike the original claim, a
malformed `now±` string whose suffix *does* scan — e.g. `"now-1h30m"` — is
substituted rather than passed through, see the counterexample.) -/
theorem normalize_relative_time_spec (tpd : GoStr → Option Int)
    (fmtT : Int → GoStr) (now : Int) (st tn k : GoStr)
    (pre post : List (GoStr × GoVal)) :
    (∀ ds u, ds ≠ [] → (∀ c ∈ ds, c.isDigit = true) →
      (u = 's' ∨ u = 'm' ∨ u = 'h' ∨ u = 'd') →
      normEntry tpd fmtT now st (k, .str (gs "now-" ++ (ds ++ [u]))) =
        (k, .str (fmtT (now - (digitsVal ds : Int) * unitMult u)))) ∧
    (∀ ds u, ds ≠ [] → (∀ c ∈ ds, c.isDigit = true) →
      (u = 's' ∨ u = 'm' ∨ u = 'h' ∨ u = 'd') →
      normEntry tpd fmtT now st (k, .str (gs "now+" ++ (ds ++ [u]))) =
        (k, .str (fmtT (now + (digitsVal ds : Int) * unitMult u)))) ∧
    ((∀ x ∈ post, (normEntry tpd fmtT now st x).1 ≠ k) →
      mapLookup (normalizeArguments tpd fmtT now st tn
          (pre ++ (k, .str (gs "now-1h")) :: post)) k =
        some (.str (fmtT (now - 3600)))) ∧
    (∀ s, goHasPrefix s (gs "now-") = false → goHasPrefix s (gs "now+") = false →
      (normEntry tpd fmtT now st (k, .str s)).2 = .str s) ∧
    (∀ s, parseRelativeTime tpd now s = none →
      (normEntry tpd fmtT now st (k, .str s)).2 = .str s) := by
  have hminus : ∀ ds u, ds ≠ [] → (∀ c ∈ ds, c.isDigit = true) →
      (u = 's' ∨ u = 'm' ∨ u = 'h' ∨ u = 'd') →
      normEntry tpd fmtT now st (k, .str (gs "now-" ++ (ds ++ [u]))) =
        (k, .str (fmtT (now - (digitsVal ds : Int) * unitMult u))) := by
    intro ds u h1 h2 h3
    have hpre : goHasPrefix (gs "now-" ++ (ds ++ [u])) (gs "now-") = true := by
      simp [goHasPrefix, List.isPrefixOf_iff_prefix, List.prefix_append]
    simp only [normEntry, hpre, Bool.true_or, if_true,
      parseRelativeTime_now_minus tpd now ds u h1 h2 h3]
  refine ⟨hminus, ?_, ?_, ?_, ?_⟩
  · intro ds u h1 h2 h3
    have hpre : goHasPrefix (gs "now+" ++ (ds ++ [u])) (gs "now+") = true := by
      simp [goHasPrefix, List.isPrefixOf_iff_prefix, List.prefix_append]
    simp only [normEntry, hpre, Bool.or_true, if_true,
      parseRelativeTime_now_plus tpd now ds u h1 h2 h3]
  · intro hpost
    have hent : normEntry tpd fmtT now st (k, .str (gs "now-1h")) =
        (k, .str (fmtT (now - 3600))) := by
      have h1h : gs "now-1h" = gs "now-" ++ (['1'] ++ ['h']) := rfl
      rw [h1h, hminus ['1'] 'h' (by simp) (by decide) (by simp)]
      have hval : (digitsVal ['1'] : Int) * unitMult 'h' = 3600 := by decide
      rw [hval]
    have := normalizeArguments_lookup tpd fmtT now st tn pre post
      (k, .str (gs "now-1h")) (by rw [hent]; exact hpost)
    rw [hent] at this
    exact this
  · intro s hs1 hs2
    simp only [normEntry, hs1, hs2, Bool.or_self, Bool.false_eq_true, if_false]
    split <;> rfl
  · intro s hnone
    by_cases hor : (goHasPrefix s (gs "now-") || goHasPrefix s (gs "now+")) = true
    · simp only [normEntry, hor, if_true, hnone]
      split <;> rfl
    · simp only [Bool.not_eq_true] at hor
      simp only [normEntry, hor, Bool.false_eq_true, if_false]
      split <;> rfl

/-- Witness for `normalize_relative_time_spec`: a lone `"now-1h"` argument
resolves to the formatted instant 3600 seconds before now = 5000. -/
theorem normalize_relative_time_spec_witness :
    mapLookup (normalizeArguments (fun _ => none) (fun _ => gs "1970-01-01T00:23:20Z")
        5000 (gs "alertmanager") (gs "q")
        ([] ++ (gs "from", .str (gs "now-1h")) :: [])) (gs "from") =
      some (.str (gs "1970-01-01T00:23:20Z")) :=
  (normalize_relative_time_spec (fun _ => none) (fun _ => gs "1970-01-01T00:23:20Z")
    5000 (gs "alertmanager") (gs "q") (gs "from") [] []).2.2.1 (by simp)

/-- C8 counterexample: for the "grafana" provider a snake_case key whose
value is a successfully resolved relative-time string keeps its snake_case
key — the `continue` after the substitution skips the camelCase rewrite, so
not *every* snake_case key is rewritten. -/
theorem snake_case_key_with_relative_value_not_camelled :
    normalizeArguments (fun _ => none) (fun _ => gs "2024-01-01T00:00:00Z") 0
        (gs "grafana") (gs "update_dashboard")
        [(gs "start_time", .str (gs "now-1h"))] =
      [(gs "start_time", .str (gs "2024-01-01T00:00:00Z"))] ∧
    mapLookup (normalizeArguments (fun _ => none) (fun _ => gs "2024-01-01T00:00:00Z") 0
        (gs "grafana") (gs "update_dashboard")
        [(gs "start_time", .str (gs "now-1h"))]) (gs "startTime") = none := by
  decide

/-- Behaviour of `normEntry` on a value that is not substituted as a relative time:
only the camelCase branch applies. -/
theorem normEntry_not_resolved (tpd : GoStr → Option Int) (fmtT : Int → GoStr)
    (now : Int) (st k : GoStr) (v : GoVal)
    (hres : resolvesRel tpd now v = false) :
    normEntry tpd fmtT now st (k, v) =
      (if st = gs "grafana" ∧ goContains k (gs "_") = true
        then (toCamelCase k, v) else (k, v)) := by
  cases v with
  | str s =>
    simp only [resolvesRel] at hres
    unfold normEntry
    simp only
    by_cases hor : (goHasPrefix s (gs "now-") || goHasPrefix s (gs "now+")) = true
    · rw [if_pos hor]
      rw [hor] at hres
      simp only [Bool.true_and] at hres
      cases hpr : parseRelativeTime tpd now s with
      | none => rfl
      | some t =>
        rw [hpr] at hres
        simp at hres
    · rw [if_neg hor]
  | int n => rfl
  | boxed t => rfl

/-- Behaviour of `normEntry` on a successfully resolved relative-time string value:
substituted in place, key unchanged. -/
theorem normEntry_resolved (tpd : GoStr → Option Int) (fmtT : Int → GoStr)
    (now : Int) (st k s : GoStr) (t : Int)
    (hor : (goHasPrefix s (gs "now-") || goHasPrefix s (gs "now+")) = true)
    (hpr : parseRelativeTime tpd now s = some t) :
    normEntry tpd fmtT now st (k, .str s) = (k, .str (fmtT t)) := by
  unfold normEntry
  simp only [hor, if_true, hpr]

/-- C8 (amended): for the "grafana" provider, every snake_case argument key
*whose value is not substituted as a relative-time string* is rewritten to
camelCase (first segment unchanged, later segments capitalized, so
`datasource_uid ↦ datasourceUid`, `simple ↦ simple`, `trailing_ ↦ trailing`),
keys without an underscore are kept, and a key whose value is a resolved
relative-time string keeps its original key; for any other provider all
argument keys are left unchanged. -/
theorem normalize_camel_case_spec (tpd : GoStr → Option Int) (fmtT : Int → GoStr)
    (now : Int) (st tn k : GoStr) (v : GoVal)
    (pre post : List (GoStr × GoVal)) :
    (st ≠ gs "grafana" → (normEntry tpd fmtT now st (k, v)).1 = k) ∧
    (resolvesRel tpd now v = false →
      normEntry tpd fmtT now (gs "grafana") (k, v) =
        (if goContains k (gs "_") = true then toCamelCase k else k, v)) ∧
    (resolvesRel tpd now v = true →
      (normEntry tpd fmtT now (gs "grafana") (k, v)).1 = k) ∧
    (resolvesRel tpd now v = false →
      (∀ x ∈ post, (normEntry tpd fmtT now (gs "grafana") x).1 ≠
        (if goContains k (gs "_") = true then toCamelCase k else k)) →
      mapLookup (normalizeArguments tpd fmtT now (gs "grafana") tn
          (pre ++ (k, v) :: post))
        (if goContains k (gs "_") = true then toCamelCase k else k) = some v) ∧
    (toCamelCase (gs "datasource_uid") = gs "datasourceUid" ∧
      toCamelCase (gs "simple") = gs "simple" ∧
      toCamelCase (gs "trailing_") = gs "trailing") := by
  have hreskey : ∀ st', resolvesRel tpd now v = true →
      (normEntry tpd fmtT now st' (k, v)).1 = k := by
    intro st' hres
    cases v with
    | str s =>
      simp only [resolvesRel] at hres
      rw [Bool.and_eq_true] at hres
      obtain ⟨t, ht⟩ := Option.isSome_iff_exists.mp hres.2
      rw [normEntry_resolved tpd fmtT now st' k s t hres.1 ht]
    | int n => simp [resolvesRel] at hres
    | boxed t => simp [resolvesRel] at hres
  have hgraf : resolvesRel tpd now v = false →
      normEntry tpd fmtT now (gs "grafana") (k, v) =
        (if goContains k (gs "_") = true then toCamelCase k else k, v) := by
    intro hres
    rw [normEntry_not_resolved tpd fmtT now (gs "grafana") k v hres]
    by_cases hu : goContains k (gs "_") = true
    · simp [hu]
    · simp [hu]
  refine ⟨?_, hgraf, hreskey (gs "grafana"), ?_,
    by decide, by decide, by decide⟩
  · intro hst
    cases hres : resolvesRel tpd now v with
    | false =>
      rw [normEntry_not_resolved tpd fmtT now st k v hres,
        if_neg (fun h => hst h.1)]
    | true => exact hreskey st hres
  · intro hres hpost
    have := normalizeArguments_lookup tpd fmtT now (gs "grafana") tn pre post (k, v)
      (by rw [hgraf hres]; exact hpost)
    rw [hgraf hres] at this
    exact this

/-- Witness for `normalize_camel_case_spec`: `datasource_uid ↦ datasourceUid`
for the "grafana" provider. -/
theorem normalize_camel_case_spec_witness :
    mapLookup (normalizeArguments (fun _ => none) (fun _ => gs "TS") 0
        (gs "grafana") (gs "update_dashboard")
        ([] ++ (gs "datasource_uid", GoVal.str (gs "abc123")) :: []))
      (if goContains (gs "datasource_uid") (gs "_") = true
        then toCamelCase (gs "datasource_uid") else gs "datasource_uid") =
      some (GoVal.str (gs "abc123")) :=
  (normalize_camel_case_spec (fun _ => none) (fun _ => gs "TS") 0 (gs "alertmanager")
    (gs "update_dashboard") (gs "datasource_uid") (GoVal.str (gs "abc123")) [] []).2.2.2.1
    (by decide) (by simp)

theorem sumLen_cons (m : Message) (l : List Message) :
    sumLen (m :: l) = (m.content.length : Int) + sumLen l := by
  simp [sumLen]

theorem sumLen_append (l r : List Message) :
    sumLen (l ++ r) = sumLen l + sumLen r := by
  simp [sumLen]

theorem sumLen_nonneg (l : List Message) : 0 ≤ sumLen l := Int.natCast_nonneg _

theorem sumLen_single (r c : GoStr) : sumLen [⟨r, c⟩] = (c.length : Int) := by
  simp [sumLen]

theorem sumLen_drop_le (l : List Message) (n : Nat) :
    sumLen (l.drop n) ≤ sumLen l := by
  conv_rhs => rw [← List.take_append_drop n l]
  rw [sumLen_append]
  have := sumLen_nonneg (l.take n)
  omega

theorem trimMsgLoop_id (maxM : Int) (l : List Message) (total : Int)
    (h : (l.length : Int) ≤ maxM) : trimMsgLoop maxM l total = (l, total) := by
  cases l with
  | nil => rfl
  | cons m0 rest =>
    simp only [trimMsgLoop]
    rw [if_neg (by omega)]

theorem trimMsgLoop_suffix (maxM : Int) (l : List Message) (total : Int) :
    (trimMsgLoop maxM l total).1 <:+ l := by
  induction l generalizing total with
  | nil => exact List.suffix_refl _
  | cons m0 rest ih =>
    simp only [trimMsgLoop]
    split
    · exact (ih _).trans ⟨[m0], rfl⟩
    · exact List.suffix_refl _

theorem trimMsgLoop_length_le (maxM : Int) (l : List Message) (total : Int)
    (h : 0 ≤ maxM) : ((trimMsgLoop maxM l total).1.length : Int) ≤ maxM := by
  induction l generalizing total with
  | nil => simpa [trimMsgLoop] using h
  | cons m0 rest ih =>
    simp only [trimMsgLoop]
    split
    · exact ih _
    · rename_i hgt
      push_cast at hgt ⊢
      omega

theorem trimMsgLoop_ne_nil (maxM : Int) (l : List Message) (total : Int)
    (hM : 1 ≤ maxM) (h : l ≠ []) : (trimMsgLoop maxM l total).1 ≠ [] := by
  induction l generalizing total with
  | nil => exact absurd rfl h
  | cons m0 rest ih =>
    simp only [trimMsgLoop]
    split
    · rename_i hgt
      cases rest with
      | nil => simp at hgt; omega
      | cons m1 rest' => exact ih _ (by simp)
    · simp

theorem trimMsgLoop_wf (maxM : Int) (l : List Message) (total : Int)
    (h : total = sumLen l) :
    (trimMsgLoop maxM l total).2 = sumLen (trimMsgLoop maxM l total).1 := by
  induction l generalizing total with
  | nil => simpa [trimMsgLoop, sumLen] using h
  | cons m0 rest ih =>
    simp only [trimMsgLoop]
    split
    · exact ih _ (by rw [h, sumLen_cons]; ring)
    · exact h

theorem trimCharLoop_id (maxC : Int) (l : List Message) (total : Int)
    (h : total ≤ maxC) : trimCharLoop maxC l total = (l, total) := by
  match l with
  | [] => rfl
  | [m0] => rfl
  | m0 :: m1 :: rest =>
    simp only [trimCharLoop]
    rw [if_neg (by omega)]

theorem trimCharLoop_post (maxC : Int) (l : List Message) (total : Int) :
    (trimCharLoop maxC l total).2 ≤ maxC ∨ (trimCharLoop maxC l total).1.length ≤ 1 := by
  induction l generalizing total with
  | nil => right; simp [trimCharLoop]
  | cons m0 rest ih =>
    cases rest with
    | nil => right; simp [trimCharLoop]
    | cons m1 rest' =>
      simp only [trimCharLoop]
      split
      · exact ih _
      · left; omega

theorem trimCharLoop_suffix (maxC : Int) (l : List Message) (total : Int) :
    (trimCharLoop maxC l total).1 <:+ l := by
  induction l generalizing total with
  | nil => exact List.suffix_refl _
  | cons m0 rest ih =>
    cases rest with
    | nil => exact List.suffix_refl _
    | cons m1 rest' =>
      simp only [trimCharLoop]
      split
      · exact (ih _).trans ⟨[m0], rfl⟩
      · exact List.suffix_refl _

theorem trimCharLoop_ne_nil (maxC : Int) (l : List Message) (total : Int)
    (h : l ≠ []) : (trimCharLoop maxC l total).1 ≠ [] := by
  induction l generalizing total with
  | nil => exact absurd rfl h
  | cons m0 rest ih =>
    cases rest with
    | nil => simp [trimCharLoop]
    | cons m1 rest' =>
      simp only [trimCharLoop]
      split
      · exact ih _ (by simp)
      · simp

theorem trimCharLoop_wf (maxC : Int) (l : List Message) (total : Int)
    (h : total = sumLen l) :
    (trimCharLoop maxC l total).2 = sumLen (trimCharLoop maxC l total).1 := by
  induction l generalizing total with
  | nil => simpa [trimCharLoop, sumLen] using h
  | cons m0 rest ih =>
    cases rest with
    | nil => exact h
    | cons m1 rest' =>
      simp only [trimCharLoop]
      split
      · exact ih _ (by rw [h, sumLen_cons]; ring)
      · exact h

theorem drop_append_le {α : Type} (l r : List α) (n : Nat) (h : n ≤ l.length) :
    (l ++ r).drop n = l.drop n ++ r := by
  induction l generalizing n with
  | nil =>
    simp only [List.length_nil, Nat.le_zero] at h
    subst h
    simp
  | cons a t ih =>
    cases n with
    | zero => simp
    | succ m =>
      simp only [List.cons_append, List.drop_succ_cons]
      exact ih m (by simpa using h)

theorem window_absorb (M : Nat) (l r : List Message) :
    window M (window M l ++ r) = window M (l ++ r) := by
  unfold window
  rw [← drop_append_le l r (l.length - M) (by omega), List.drop_drop]
  congr 1
  simp only [List.length_drop, List.length_append]
  omega

theorem trimMsgLoop_window (M : Nat) (_hM : 1 ≤ M) (l : List Message)
    (hl : l.length ≤ M + 1) :
    trimMsgLoop (M : Int) l (sumLen l) = (window M l, sumLen (window M l)) := by
  by_cases h : l.length ≤ M
  · rw [trimMsgLoop_id _ _ _ (by exact_mod_cast h)]
    unfold window
    rw [show l.length - M = 0 by omega, List.drop_zero]
  · have hlen : l.length = M + 1 := by omega
    cases l with
    | nil => simp at hlen
    | cons m0 rest =>
      have hrl : rest.length = M := by simp at hlen; omega
      have hwin : window M (m0 :: rest) = rest := by
        unfold window
        rw [show (m0 :: rest).length - M = 1 by simp [hrl]]
        simp
      simp only [trimMsgLoop]
      rw [if_pos (by simp only [List.length_cons, hrl]; push_cast; omega)]
      rw [show sumLen (m0 :: rest) - (m0.content.length : Int) = sumLen rest by
        rw [sumLen_cons]; ring]
      rw [trimMsgLoop_id _ _ _ (le_of_eq (by rw [hrl]))]
      rw [hwin]

theorem AddMessage_raw (mem : ConversationMemory) (r c : GoStr)
    (hmm : 0 < mem.maxMessages) (hmc : 0 < mem.maxCharacters) :
    AddMessage mem r c =
      { mem with
        messages := (trimCharLoop mem.maxCharacters
          (trimMsgLoop mem.maxMessages (mem.messages ++ [⟨r, c⟩])
            (mem.totalChars + c.length)).1
          (trimMsgLoop mem.maxMessages (mem.messages ++ [⟨r, c⟩])
            (mem.totalChars + c.length)).2).1
        totalChars := (trimCharLoop mem.maxCharacters
          (trimMsgLoop mem.maxMessages (mem.messages ++ [⟨r, c⟩])
            (mem.totalChars + c.length)).1
          (trimMsgLoop mem.maxMessages (mem.messages ++ [⟨r, c⟩])
            (mem.totalChars + c.length)).2).2 } := by
  unfold AddMessage trimToMessageLimit
  rw [if_neg (by simp only; omega)]
  unfold trimToCharacterLimit
  rw [if_neg (by simp only; omega)]

theorem AddMessage_window (M C : Nat) (hM : 1 ≤ M) (hC : 1 ≤ C)
    (mem : ConversationMemory) (r c : GoStr)
    (hmm : mem.maxMessages = (M : Int)) (hmc : mem.maxCharacters = (C : Int))
    (hwf : mem.totalChars = sumLen mem.messages)
    (hlen : mem.messages.length ≤ M)
    (hch : sumLen (mem.messages ++ [⟨r, c⟩]) ≤ (C : Int)) :
    (AddMessage mem r c).messages = window M (mem.messages ++ [⟨r, c⟩]) ∧
    (AddMessage mem r c).totalChars = sumLen (window M (mem.messages ++ [⟨r, c⟩])) ∧
    (AddMessage mem r c).maxMessages = (M : Int) ∧
    (AddMessage mem r c).maxCharacters = (C : Int) := by
  have htot : mem.totalChars + ((c.length : Nat) : Int) = sumLen (mem.messages ++ [⟨r, c⟩]) := by
    rw [hwf, sumLen_append, sumLen_cons]
    simp [sumLen]
  have hmt : trimMsgLoop mem.maxMessages (mem.messages ++ [⟨r, c⟩])
      (mem.totalChars + c.length) =
      (window M (mem.messages ++ [⟨r, c⟩]), sumLen (window M (mem.messages ++ [⟨r, c⟩]))) := by
    rw [hmm, htot]
    exact trimMsgLoop_window M hM _ (by simp; omega)
  have hwle : sumLen (window M (mem.messages ++ [⟨r, c⟩])) ≤ (C : Int) :=
    le_trans (sumLen_drop_le _ _) hch
  rw [AddMessage_raw mem r c (by omega) (by omega), hmt]
  simp only
  rw [hmc, trimCharLoop_id _ _ _ hwle]
  exact ⟨rfl, rfl, hmm, rfl⟩

theorem addAll_window (M C : Nat) (hM : 1 ≤ M) (hC : 1 ≤ C)
    (batch : List (GoStr × GoStr)) :
    ∀ (mem : ConversationMemory),
    mem.maxMessages = (M : Int) → mem.maxCharacters = (C : Int) →
    mem.totalChars = sumLen mem.messages →
    mem.messages.length ≤ M →
    sumLen mem.messages + sumLen (batch.map (fun rc => ⟨rc.1, rc.2⟩)) ≤ (C : Int) →
    (addAll mem batch).messages =
      window M (mem.messages ++ batch.map (fun rc => (⟨rc.1, rc.2⟩ : Message))) := by
  induction batch with
  | nil =>
    intro mem hmm hmc hwf hlen hch
    show mem.messages = window M (mem.messages ++ [])
    rw [List.append_nil]
    unfold window
    rw [show mem.messages.length - M = 0 by omega, List.drop_zero]
  | cons rc rest ih =>
    intro mem hmm hmc hwf hlen hch
    rw [List.map_cons, sumLen_cons] at hch
    simp only at hch
    have hrest0 := sumLen_nonneg (rest.map (fun x => (⟨x.1, x.2⟩ : Message)))
    have hch1 : sumLen (mem.messages ++ [⟨rc.1, rc.2⟩]) ≤ (C : Int) := by
      rw [sumLen_append, sumLen_single]
      omega
    obtain ⟨hmsg, htot, hmm', hmc'⟩ :=
      AddMessage_window M C hM hC mem rc.1 rc.2 hmm hmc hwf hlen hch1
    have hlen' : (AddMessage mem rc.1 rc.2).messages.length ≤ M := by
      rw [hmsg]
      unfold window
      simp only [List.length_drop]
      omega
    have hwf' : (AddMessage mem rc.1 rc.2).totalChars =
        sumLen (AddMessage mem rc.1 rc.2).messages := by
      rw [htot, hmsg]
    have hdrop : sumLen (window M (mem.messages ++ [⟨rc.1, rc.2⟩])) ≤
        sumLen (mem.messages ++ [⟨rc.1, rc.2⟩]) := sumLen_drop_le _ _
    have hch' : sumLen (AddMessage mem rc.1 rc.2).messages +
        sumLen (rest.map (fun x => (⟨x.1, x.2⟩ : Message))) ≤ (C : Int) := by
      rw [hmsg]
      rw [sumLen_append, sumLen_single] at hdrop
      omega
    have hrec := ih (AddMessage mem rc.1 rc.2) hmm' hmc' hwf' hlen' hch'
    show (addAll (AddMessage mem rc.1 rc.2) rest).messages = _
    rw [hrec, hmsg, window_absorb]
    congr 1
    simp

/-- C3 counterexample: with `maxMessages = 2`, `maxCharacters = 3`,
appending three 4-character messages leaves only 1 message, not
`maxMessages = 2` — the character-budget eviction can leave strictly fewer
than the `maxMessages` newest messages, so "appending N > maxMessages
messages leaves exactly the maxMessages newest messages" fails. -/
theorem session_memory_exact_count_cex :
    (addAll (NewConversationMemoryWithConfig ⟨2, 3⟩)
      [(gs "user", gs "aaaa"), (gs "user", gs "bbbb"), (gs "user", gs "cccc")]).messages =
      [⟨gs "user", gs "cccc"⟩] ∧
    ¬ (addAll (NewConversationMemoryWithConfig ⟨2, 3⟩)
      [(gs "user", gs "aaaa"), (gs "user", gs "bbbb"), (gs "user", gs "cccc")]).messages.length = 2 := by
  decide

/-- C3 (amended): for positive `maxMessages = M` and `maxCharacters = C`,
after every `AddMessage` the memory holds at most `M` messages, and either
`totalChars ≤ C` or exactly one (the newest) message remains; eviction is
strictly oldest-first (the post-state is a suffix of the appended list);
`Clear` trivially satisfies both bounds; and appending `N > M` messages to
a fresh memory leaves exactly the `M` newest messages *provided their
combined length fits the character budget* (without that proviso the claim
fails, see the counterexample). -/
theorem session_memory_bounds (mem : ConversationMemory) (r c : GoStr)
    (M C : Nat) (hM : 1 ≤ M) (hC : 1 ≤ C)
    (hmm : mem.maxMessages = (M : Int)) (hmc : mem.maxCharacters = (C : Int)) :
    (AddMessage mem r c).messages.length ≤ M ∧
    ((AddMessage mem r c).totalChars ≤ (C : Int) ∨
      (AddMessage mem r c).messages.length = 1) ∧
    (AddMessage mem r c).messages <:+ mem.messages ++ [⟨r, c⟩] ∧
    (Clear mem).messages.length ≤ M ∧ (Clear mem).totalChars ≤ (C : Int) ∧
    (∀ batch : List (GoStr × GoStr), M < batch.length →
      sumLen (batch.map (fun rc => ⟨rc.1, rc.2⟩)) ≤ (C : Int) →
      (addAll (NewConversationMemoryWithConfig ⟨(M : Int), (C : Int)⟩) batch).messages =
        (batch.map (fun rc => (⟨rc.1, rc.2⟩ : Message))).drop (batch.length - M)) := by
  have hA := AddMessage_raw mem r c (by omega) (by omega)
  have hmsgs : (AddMessage mem r c).messages =
      (trimCharLoop mem.maxCharacters
        (trimMsgLoop mem.maxMessages (mem.messages ++ [⟨r, c⟩])
          (mem.totalChars + c.length)).1
        (trimMsgLoop mem.maxMessages (mem.messages ++ [⟨r, c⟩])
          (mem.totalChars + c.length)).2).1 := by rw [hA]
  have htot : (AddMessage mem r c).totalChars =
      (trimCharLoop mem.maxCharacters
        (trimMsgLoop mem.maxMessages (mem.messages ++ [⟨r, c⟩])
          (mem.totalChars + c.length)).1
        (trimMsgLoop mem.maxMessages (mem.messages ++ [⟨r, c⟩])
          (mem.totalChars + c.length)).2).2 := by rw [hA]
  have hsuffK := trimCharLoop_suffix mem.maxCharacters
    (trimMsgLoop mem.maxMessages (mem.messages ++ [⟨r, c⟩]) (mem.totalChars + c.length)).1
    (trimMsgLoop mem.maxMessages (mem.messages ++ [⟨r, c⟩]) (mem.totalChars + c.length)).2
  have hsuffT := trimMsgLoop_suffix mem.maxMessages (mem.messages ++ [⟨r, c⟩])
    (mem.totalChars + c.length)
  have hlenT := trimMsgLoop_length_le mem.maxMessages (mem.messages ++ [⟨r, c⟩])
    (mem.totalChars + c.length) (by omega)
  have hTne := trimMsgLoop_ne_nil mem.maxMessages (mem.messages ++ [⟨r, c⟩])
    (mem.totalChars + c.length) (by omega) (by simp)
  have hKne := trimCharLoop_ne_nil mem.maxCharacters
    (trimMsgLoop mem.maxMessages (mem.messages ++ [⟨r, c⟩]) (mem.totalChars + c.length)).1
    (trimMsgLoop mem.maxMessages (mem.messages ++ [⟨r, c⟩]) (mem.totalChars + c.length)).2
    hTne
  have hpost := trimCharLoop_post mem.maxCharacters
    (trimMsgLoop mem.maxMessages (mem.messages ++ [⟨r, c⟩]) (mem.totalChars + c.length)).1
    (trimMsgLoop mem.maxMessages (mem.messages ++ [⟨r, c⟩]) (mem.totalChars + c.length)).2
  refine ⟨?_, ?_, ?_, by simp [Clear], by simp [Clear], ?_⟩
  · rw [hmsgs]
    have h1 := hsuffK.length_le
    omega
  · rw [hmsgs, htot]
    rcases hpost with h | h
    · left
      omega
    · right
      have h0 : ¬ (trimCharLoop mem.maxCharacters
          (trimMsgLoop mem.maxMessages (mem.messages ++ [⟨r, c⟩])
            (mem.totalChars + c.length)).1
          (trimMsgLoop mem.maxMessages (mem.messages ++ [⟨r, c⟩])
            (mem.totalChars + c.length)).2).1.length = 0 := by
        simpa [List.length_eq_zero] using hKne
      omega
  · rw [hmsgs]
    exact hsuffK.trans hsuffT
  · intro batch hN hsum
    have hmm0 : (NewConversationMemoryWithConfig ⟨(M : Int), (C : Int)⟩).maxMessages
        = (M : Int) := by
      simp only [NewConversationMemoryWithConfig]
      rw [if_neg (by omega)]
    have hmc0 : (NewConversationMemoryWithConfig ⟨(M : Int), (C : Int)⟩).maxCharacters
        = (C : Int) := by
      simp only [NewConversationMemoryWithConfig]
      rw [if_neg (by omega)]
    rw [addAll_window M C hM hC batch _ hmm0 hmc0 rfl
      (by simp [NewConversationMemoryWithConfig])
      (by simpa [NewConversationMemoryWithConfig, sumLen] using hsum)]
    show window M ([] ++ batch.map _) = _
    rw [List.nil_append]
    unfold window
    rw [List.length_map]

/-- Witness for `session_memory_bounds` at a concrete memory and message. -/
theorem session_memory_bounds_witness :
    (AddMessage (NewConversationMemoryWithConfig ⟨2, 100⟩) (gs "user") (gs "hi")).messages.length ≤ 2 :=
  (session_memory_bounds (NewConversationMemoryWithConfig ⟨2, 100⟩) (gs "user") (gs "hi")
    2 100 (by norm_num) (by norm_num) (by decide) (by decide)).1

/-- Every chunk the receive loop emits is a `token`. -/
theorem procResponses_tokens (resps : List StreamResponse) :
    ∀ st c, c ∈ (procResponses st resps).2 → ∃ t, c = .token t := by
  induction resps with
  | nil => intro st c h; simp [procResponses] at h
  | cons r rest ih =>
    intro st c h
    simp only [procResponses, List.mem_append] at h
    rcases h with h | h
    · unfold procResponse at h
      rcases hch : r.choices with _ | ⟨delta, ds⟩
      · rw [hch] at h
        simp at h
      · rw [hch] at h
        by_cases hc : delta.content ≠ []
        · simp only [hc, if_true] at h
          simp at h
          exact ⟨delta.content, h.2⟩
        · simp only [hc, if_false] at h
          simp at h
    · exact ih _ c h

/-- Every chunk the post-stream tool loop emits is an `error` or a `tool`. -/
theorem toolChunks_mem (parse : GoStr → Except GoStr (List (GoStr × GoVal)))
    (calls : List ToolCall) :
    ∀ acc c, c ∈ calls.foldl (toolChunkStep parse) acc →
      c ∈ acc ∨ (∃ m, c = .error m) ∨ (∃ n a, c = .tool n a) := by
  induction calls with
  | nil => intro acc c h; exact Or.inl h
  | cons tc rest ih =>
    intro acc c h
    rcases ih _ c h with h' | h' | h'
    · unfold toolChunkStep at h'
      split at h'
      · exact Or.inl h'
      · split at h'
        · rcases List.mem_append.mp h' with h'' | h''
          · exact Or.inl h''
          · simp at h''
            exact Or.inr (Or.inl ⟨_, h''⟩)
        · rcases List.mem_append.mp h' with h'' | h''
          · exact Or.inl h''
          · simp at h''
            exact Or.inr (Or.inr ⟨_, _, h''⟩)
    · exact Or.inr (Or.inl h')
    · exact Or.inr (Or.inr h')

/-- C1 counterexample: a turn whose stream fails immediately emits `start`
then `error` and returns — no `done` chunk is emitted, contradicting
"no failure during streaming prevents emission of the final `done`". -/
theorem stream_error_drops_done :
    streamChatChunks (fun _ => Except.ok []) [] (.recvError (gs "boom")) =
      [.start, .error (gs "Stream error: boom")] ∧
    StreamChunk.done ∉
      streamChatChunks (fun _ => Except.ok []) [] (.recvError (gs "boom")) := by
  decide

/-- C1 (amended): every turn emits exactly one `start`, first. A turn whose
provider stream ends normally (EOF) ends with exactly one `done`, last —
tool-argument parse failures only add `error` chunks and never prevent it.
But a transport error from the stream aborts the goroutine after emitting
an `error` chunk: the sequence then ends with that `error` and contains no
`done` at all. -/
theorem stream_start_done_spec (parse : GoStr → Except GoStr (List (GoStr × GoVal)))
    (resps : List StreamResponse) (ending : StreamEnd) :
    (streamChatChunks parse resps ending).head? = some .start ∧
    (streamChatChunks parse resps ending).count .start = 1 ∧
    (ending = .eof →
      (streamChatChunks parse resps .eof).getLast? = some .done ∧
      (streamChatChunks parse resps .eof).count .done = 1) ∧
    (∀ msg, ending = .recvError msg →
      (streamChatChunks parse resps (.recvError msg)).getLast? =
        some (.error (gs "Stream error: " ++ msg)) ∧
      (streamChatChunks parse resps (.recvError msg)).count .done = 0) := by
  have hbody0 : ∀ (a : StreamChunk), (∀ t, a ≠ .token t) →
      (procResponses ⟨[], []⟩ resps).2.count a = 0 := by
    intro a ha
    rw [List.count_eq_zero]
    intro hmem
    obtain ⟨t, rfl⟩ := procResponses_tokens resps _ _ hmem
    exact ha t rfl
  have htool0 : ∀ (a : StreamChunk), (∀ m, a ≠ .error m) → (∀ n ar, a ≠ .tool n ar) →
      (toolChunks parse (procResponses ⟨[], []⟩ resps).1.toolCalls).count a = 0 := by
    intro a ha hb
    rw [List.count_eq_zero]
    intro hmem
    rcases toolChunks_mem parse _ _ _ hmem with h | ⟨m, rfl⟩ | ⟨n, ar, rfl⟩
    · simp at h
    · exact ha m rfl
    · exact hb n ar rfl
  refine ⟨?_, ?_, ?_, ?_⟩
  · cases ending <;> rfl
  · cases ending with
    | recvError msg =>
      simp only [streamChatChunks, List.count_cons, List.count_append]
      rw [hbody0 .start (by intro t h; cases h)]
      simp
    | eof =>
      simp only [streamChatChunks, List.count_cons, List.count_append]
      rw [hbody0 .start (by intro t h; cases h),
        htool0 .start (by intro m h; cases h) (by intro n a h; cases h)]
      simp
  · rintro rfl
    constructor
    · show ((.start :: (procResponses ⟨[], []⟩ resps).2 ++
        toolChunks parse (procResponses ⟨[], []⟩ resps).1.toolCalls ++
        [.complete (procResponses ⟨[], []⟩ resps).1.fullContent, .done]) :
          List StreamChunk).getLast? = some .done
      rw [show ((.start :: (procResponses ⟨[], []⟩ resps).2 ++
        toolChunks parse (procResponses ⟨[], []⟩ resps).1.toolCalls ++
        [.complete (procResponses ⟨[], []⟩ resps).1.fullContent, .done]) :
          List StreamChunk) =
        (.start :: (procResponses ⟨[], []⟩ resps).2 ++
          toolChunks parse (procResponses ⟨[], []⟩ resps).1.toolCalls ++
          [.complete (procResponses ⟨[], []⟩ resps).1.fullContent]) ++ [.done] by simp]
      exact List.getLast?_concat _
    · simp only [streamChatChunks, List.count_cons, List.count_append]
      rw [hbody0 .done (by intro t h; cases h),
        htool0 .done (by intro m h; cases h) (by intro n a h; cases h)]
      simp
  · rintro msg rfl
    constructor
    · show ((.start :: (procResponses ⟨[], []⟩ resps).2 ++
        [.error (gs "Stream error: " ++ msg)]) : List StreamChunk).getLast? = _
      rw [show ((.start :: (procResponses ⟨[], []⟩ resps).2 ++
          [.error (gs "Stream error: " ++ msg)]) : List StreamChunk) =
        (.start :: (procResponses ⟨[], []⟩ resps).2) ++
          [.error (gs "Stream error: " ++ msg)] by simp]
      exact List.getLast?_concat _
    · simp only [streamChatChunks, List.count_cons, List.count_append]
      rw [hbody0 .done (by intro t h; cases h)]
      simp

/-- Witness for `stream_start_done_spec`: a one-token turn ending in EOF
ends with `done`; a failing turn ends with its `error` chunk. -/
theorem stream_start_done_spec_witness :
    (streamChatChunks (fun _ => Except.ok []) [⟨[⟨gs "Hi", []⟩]⟩] .eof).getLast? =
      some .done ∧
    (streamChatChunks (fun _ => Except.ok []) [⟨[⟨gs "Hi", []⟩]⟩]
      (.recvError (gs "net"))).count .done = 0 :=
  ⟨((stream_start_done_spec (fun _ => Except.ok []) [⟨[⟨gs "Hi", []⟩]⟩] .eof).2.2.1
      rfl).1,
   ((stream_start_done_spec (fun _ => Except.ok []) [⟨[⟨gs "Hi", []⟩]⟩]
      (.recvError (gs "net"))).2.2.2 (gs "net") rfl).2⟩

theorem toolChunkStep_acc (parse : GoStr → Except GoStr (List (GoStr × GoVal)))
    (acc : List StreamChunk) (tc : ToolCall) :
    toolChunkStep parse acc tc = acc ++ toolChunkStep parse [] tc := by
  unfold toolChunkStep
  split
  · simp
  · cases parse tc.farguments <;> simp

theorem toolChunks_foldl_acc (parse : GoStr → Except GoStr (List (GoStr × GoVal)))
    (l : List ToolCall) :
    ∀ acc, l.foldl (toolChunkStep parse) acc = acc ++ l.foldl (toolChunkStep parse) [] := by
  induction l with
  | nil => intro acc; simp
  | cons tc rest ih =>
    intro acc
    show List.foldl _ (toolChunkStep parse acc tc) rest = _
    rw [ih (toolChunkStep parse acc tc), toolChunkStep_acc parse acc tc]
    show _ = acc ++ List.foldl _ (toolChunkStep parse [] tc) rest
    rw [ih (toolChunkStep parse [] tc)]
    simp

theorem toolChunks_append (parse : GoStr → Except GoStr (List (GoStr × GoVal)))
    (a b : List ToolCall) :
    toolChunks parse (a ++ b) = toolChunks parse a ++ toolChunks parse b := by
  unfold toolChunks
  rw [List.foldl_append, toolChunks_foldl_acc]

theorem toolChunks_cons (parse : GoStr → Except GoStr (List (GoStr × GoVal)))
    (tc : ToolCall) (l : List ToolCall) :
    toolChunks parse (tc :: l) = toolChunkStep parse [] tc ++ toolChunks parse l := by
  unfold toolChunks
  show List.foldl _ (toolChunkStep parse [] tc) l = _
  rw [toolChunks_foldl_acc]

/-- C2: tool-call fragments are merged into the accumulator keyed by the
fragment's call index — indexless fragments are skipped, the accumulator is
grown with empty entries up to the index without touching existing entries,
id/type/name are overwritten exactly when non-empty in the fragment and the
argument text is appended (never overwritten), and other indices are
untouched. At stream end each accumulated call with an empty name is
skipped; a call whose accumulated argument text fails to parse contributes
exactly one `error` chunk while the calls around it are still processed;
the `complete` and `done` chunks always follow. The split-fragment
`get_alerts` scenario produces `tool`, `complete`, `done`. -/
theorem stream_tool_accumulation_spec
    (parse : GoStr → Except GoStr (List (GoStr × GoVal))) :
    (∀ calls tc, tc.index = none → applyFragment calls tc = calls) ∧
    (∀ calls (tc : ToolCallDelta) (idx : Nat), tc.index = some idx →
      (applyFragment calls tc).length = max calls.length (idx + 1) ∧
      (applyFragment calls tc).getD idx emptyToolCall =
        { id := if tc.id ≠ [] then tc.id
            else ((growTo calls idx).getD idx emptyToolCall).id
          ctype := if tc.ctype ≠ [] then tc.ctype
            else ((growTo calls idx).getD idx emptyToolCall).ctype
          fname := if tc.fname ≠ [] then tc.fname
            else ((growTo calls idx).getD idx emptyToolCall).fname
          farguments := ((growTo calls idx).getD idx emptyToolCall).farguments
            ++ tc.farguments } ∧
      (∀ j, j ≠ idx → (applyFragment calls tc).getD j emptyToolCall =
        (growTo calls idx).getD j emptyToolCall) ∧
      (∀ j, j < calls.length → (growTo calls idx).getD j emptyToolCall =
        calls.getD j emptyToolCall)) ∧
    (∀ pre post tc, tc.fname = [] →
      toolChunks parse (pre ++ tc :: post) =
        toolChunks parse pre ++ toolChunks parse post) ∧
    (∀ pre post tc e, tc.fname ≠ [] → parse tc.farguments = .error e →
      toolChunks parse (pre ++ tc :: post) =
        toolChunks parse pre ++
          [.error (gs "Failed to parse tool arguments: " ++ e)] ++
          toolChunks parse post) ∧
    (∀ pre post tc args, tc.fname ≠ [] → parse tc.farguments = .ok args →
      toolChunks parse (pre ++ tc :: post) =
        toolChunks parse pre ++ [.tool tc.fname args] ++ toolChunks parse post) ∧
    (∀ resps, streamChatChunks parse resps .eof =
      .start :: (procResponses ⟨[], []⟩ resps).2 ++
        toolChunks parse (procResponses ⟨[], []⟩ resps).1.toolCalls ++
        [.complete (procResponses ⟨[], []⟩ resps).1.fullContent, .done]) ∧
    (∀ args, parse (gs "\x7b\"severity\":\"critical\"\x7d") = .ok args →
      streamChatChunks parse
        [⟨[⟨[], [⟨some 0, gs "call1", gs "function", gs "get_alerts", gs "\x7b\"se"⟩]⟩]⟩,
         ⟨[⟨[], [⟨some 0, [], [], [], gs "verity\":\"critical\"\x7d"⟩]⟩]⟩] .eof =
      [.start, .tool (gs "get_alerts") args, .complete [], .done]) := by
  have hgrow_len : ∀ (calls : List ToolCall) idx,
      (growTo calls idx).length = max calls.length (idx + 1) := by
    intro calls idx
    unfold growTo
    simp only [List.length_append, List.length_replicate]
    omega
  refine ⟨?_, ?_, ?_, ?_, ?_, fun _ => rfl, ?_⟩
  · intro calls tc h
    unfold applyFragment
    rw [h]
  · intro calls tc idx h
    unfold applyFragment
    rw [h]
    simp only
    have hlt : idx < (growTo calls idx).length := by rw [hgrow_len]; omega
    refine ⟨?_, ?_, ?_, ?_⟩
    · rw [List.length_set, hgrow_len]
    · rw [List.getD_eq_getElem?_getD, List.getElem?_set_self hlt]
      by_cases hf : tc.farguments ≠ []
      · simp [hf]
      · simp only [ne_eq, Bool.not_eq_true] at hf
        push_neg at hf
        simp [hf]
    · intro j hj
      rw [List.getD_eq_getElem?_getD, List.getElem?_set_ne (Ne.symm hj),
        List.getD_eq_getElem?_getD]
    · intro j hj
      unfold growTo
      rw [List.getD_eq_getElem?_getD, List.getD_eq_getElem?_getD,
        List.getElem?_append, if_pos hj]
  · intro pre post tc hname
    rw [show (pre ++ tc :: post) = pre ++ [tc] ++ post by simp,
      toolChunks_append, toolChunks_append]
    have : toolChunks parse [tc] = [] := by
      unfold toolChunks
      show toolChunkStep parse [] tc = []
      unfold toolChunkStep
      rw [if_pos hname]
    rw [this]
    simp
  · intro pre post tc e hname hparse
    rw [show (pre ++ tc :: post) = pre ++ [tc] ++ post by simp,
      toolChunks_append, toolChunks_append]
    have : toolChunks parse [tc] =
        [.error (gs "Failed to parse tool arguments: " ++ e)] := by
      unfold toolChunks
      show toolChunkStep parse [] tc = _
      unfold toolChunkStep
      rw [if_neg hname, hparse]
      simp
    rw [this]
  · intro pre post tc args hname hparse
    rw [show (pre ++ tc :: post) = pre ++ [tc] ++ post by simp,
      toolChunks_append, toolChunks_append]
    have : toolChunks parse [tc] = [.tool tc.fname args] := by
      unfold toolChunks
      show toolChunkStep parse [] tc = _
      unfold toolChunkStep
      rw [if_neg hname, hparse]
      simp
    rw [this]
  · intro args hparse
    show (.start :: ([] : List StreamChunk) ++
      toolChunks parse _ ++ [.complete _, .done]) = _
    rw [show (procResponses ⟨[], []⟩
        [⟨[⟨[], [⟨some 0, gs "call1", gs "function", gs "get_alerts", gs "\x7b\"se"⟩]⟩]⟩,
         ⟨[⟨[], [⟨some 0, [], [], [], gs "verity\":\"critical\"\x7d"⟩]⟩]⟩]).1.toolCalls =
      [⟨gs "call1", gs "function", gs "get_alerts", gs "\x7b\"severity\":\"critical\"\x7d"⟩]
      by decide]
    rw [toolChunks_cons]
    unfold toolChunkStep
    rw [if_neg (by decide)]
    simp only
    rw [hparse]
    rfl

/-- Witness for `stream_tool_accumulation_spec`: the split-fragment
`get_alerts` scenario with a parse function that accepts the reassembled
JSON text. -/
theorem stream_tool_accumulation_spec_witness :
    streamChatChunks
      (fun s => if s = gs "\x7b\"severity\":\"critical\"\x7d"
        then .ok [(gs "severity", GoVal.str (gs "critical"))] else .error (gs "bad"))
      [⟨[⟨[], [⟨some 0, gs "call1", gs "function", gs "get_alerts", gs "\x7b\"se"⟩]⟩]⟩,
       ⟨[⟨[], [⟨some 0, [], [], [], gs "verity\":\"critical\"\x7d"⟩]⟩]⟩] .eof =
    [.start, .tool (gs "get_alerts") [(gs "severity", GoVal.str (gs "critical"))],
     .complete [], .done] :=
  (stream_tool_accumulation_spec
    (fun s => if s = gs "\x7b\"severity\":\"critical\"\x7d"
      then .ok [(gs "severity", GoVal.str (gs "critical"))] else .error (gs "bad"))).2.2.2.2.2.2
    [(gs "severity", GoVal.str (gs "critical"))] (by decide)

/-- C10: `buildContextualMessage` returns the user message unchanged for a
nil context and also for a supplied context whose name, UID and folder are
empty, whose tag list is empty, and whose time range (if any) lacks a
non-empty "from" or "to" entry — no lone header is prepended; moreover the
"Time Range" line contributes nothing unless both "from" and "to" are
non-empty (a context whose time range fails that test renders exactly like
the same context without a time range). -/
theorem build_contextual_message_spec (u : GoStr) (c : DashboardContext) :
    buildContextualMessage u none = u ∧
    (c.name = [] → c.uid = [] → c.folder = [] → c.tags = [] →
      (∀ tr, c.timeRange = some tr →
        strMapGet tr (gs "from") = [] ∨ strMapGet tr (gs "to") = []) →
      buildContextualMessage u (some c) = u) ∧
    (∀ tr, c.timeRange = some tr →
      (strMapGet tr (gs "from") = [] ∨ strMapGet tr (gs "to") = []) →
      buildContextualMessage u (some c) =
        buildContextualMessage u (some { c with timeRange := none })) := by
  refine ⟨rfl, ?_, ?_⟩
  · intro hname huid hfolder htags htr
    simp only [buildContextualMessage, hname, huid, hfolder, htags, ne_eq,
      not_true_eq_false, if_false, List.length_nil, gt_iff_lt, Nat.lt_irrefl]
    cases hc : c.timeRange with
    | none => simp
    | some tr =>
      rcases htr tr hc with h | h
      · simp [h]
      · simp [h]
  · intro tr htr hft
    simp only [buildContextualMessage, htr]
    rcases hft with h | h
    · simp [h]
    · simp [h]

/-- Witness for `build_contextual_message_spec`: a context that is entirely
empty except for a time range with only a "from" entry leaves the message
untouched. -/
theorem build_contextual_message_spec_witness :
    buildContextualMessage (gs "hello")
      (some ⟨[], [], [], [], some [(gs "from", gs "now-1h")]⟩) = gs "hello" :=
  (build_contextual_message_spec (gs "hello")
    ⟨[], [], [], [], some [(gs "from", gs "now-1h")]⟩).2.1 rfl rfl rfl rfl
    (by intro tr htr
        simp only [Option.some.injEq] at htr
        subst htr
        right
        decide)

end GrafanaChat
